import Mathlib

/-!
# Verification of the `pattiyal-expense-tracker` PDF-statement extraction core

Shallow embedding of the line-to-transaction extraction pipeline of
`modal/pdf_extract.py`: amount recognition (`parse_amount`, the
`[\d,]+\.\d{2}` scan), date recognition (`parse_date` with its five
pattern/format pairs and `strptime`/`strftime` semantics), description
isolation, per-line candidate construction
(`extract_transactions_from_lines`) and key-based deduplication (the loop
in the `extract` endpoint).

Strings are modelled as `List Char` (the OCR lines are plain text; the
Unicode-digit classes of Python's `re` are modelled by their ASCII
restriction, which is what bank-statement OCR output contains).  Python
floats are modelled exactly as rationals `ℚ`: every numeric literal the
pipeline actually parses is a two-decimal amount, far inside double
precision, so no claim here depends on rounding.  `datetime.strftime`
is modelled as it behaves on the Linux image the service pins
(`modal.Image.debian_slim`): `%Y` renders the year as an unpadded decimal
number, `%m`/`%d` are zero-padded to two digits.
-/

namespace PdfExtract

/-! ## Character classes (ASCII restrictions of Python's `re` classes) -/

/-- Python `\s`: space, tab, newline, carriage return, form feed, vertical tab. -/
def isPySpace (c : Char) : Bool :=
  c = ' ' || c = '\t' || c = '\n' || c = '\r' || c = '\x0b' || c = '\x0c'

/-- Python `\w` (ASCII): letters, digits, underscore. -/
def isWordChar (c : Char) : Bool :=
  c.isAlpha || c.isDigit || c = '_'

/-- The character class `[\d,]` of the amount regex. -/
def isAmtChar (c : Char) : Bool :=
  c.isDigit || c = ','

/-- Numeric value of a digit character. -/
def digitVal (c : Char) : Nat := c.toNat - 48

/-- Decimal digit to its character, used to model Python's number rendering. -/
def digitChar : Nat → Char
  | 0 => '0' | 1 => '1' | 2 => '2' | 3 => '3' | 4 => '4'
  | 5 => '5' | 6 => '6' | 7 => '7' | 8 => '8' | _ => '9'

/-- Value of a big-endian digit string (how `float`/`int` read digit runs). -/
def digitsVal (cs : List Char) : Nat :=
  cs.foldl (fun a c => a * 10 + digitVal c) 0

/-- Big-endian decimal digits of `n`; `fuel`-driven so that it computes by
kernel reduction (`fuel ≥ n` suffices since `n / 10 < n` for `n ≥ 1`). -/
def natDigitsGo : Nat → Nat → List Char
  | 0, _ => []
  | _, 0 => []
  | fuel + 1, n + 1 => natDigitsGo fuel ((n + 1) / 10) ++ [digitChar ((n + 1) % 10)]

/-- Decimal rendering of a natural number, as Python renders integers
(and as glibc `strftime` renders `%Y`: no zero padding). -/
def natRepr (n : Nat) : List Char :=
  if n = 0 then ['0'] else natDigitsGo n n

/-- Two-digit zero-padded rendering (`strftime` `%m` / `%d`). -/
def pad2 (n : Nat) : List Char :=
  if n < 10 then '0' :: natRepr n else natRepr n

/-! ## Calendar validation (what `datetime.strptime` + the `datetime`
constructor accept).  `strptime`'s own regexes bound the day by 1–31 and the
month by 1–12, and constructing the `datetime` enforces the day-in-month and
`MINYEAR = 1` / `MAXYEAR = 9999` constraints; the conjunction is exactly
validity of the calendar date. -/

def isLeap (y : Nat) : Bool :=
  y % 4 = 0 && (y % 100 != 0 || y % 400 = 0)

def daysInMonth (y m : Nat) : Nat :=
  if m = 2 then (if isLeap y then 29 else 28)
  else if m = 4 || m = 6 || m = 9 || m = 11 then 30
  else 31

def validYmd (y m d : Nat) : Bool :=
  1 ≤ y && y ≤ 9999 && 1 ≤ m && m ≤ 12 && 1 ≤ d && d ≤ daysInMonth y m

/-- Python `strptime` `%y`: POSIX two-digit-year pivot. -/
def y2k (yy : Nat) : Nat :=
  if yy < 69 then 2000 + yy else 1900 + yy

/-- `dt.strftime('%Y-%m-%d')` on the deployment platform: unpadded year,
two-digit zero-padded month and day. -/
def toIso (y m d : Nat) : List Char :=
  natRepr y ++ '-' :: (pad2 m ++ '-' :: pad2 d)

/-- Validate-and-render: the `try: datetime.strptime(...)` /
`dt.strftime('%Y-%m-%d')` step of `parse_date` for already-decomposed
components. -/
def mkDate (y m d : Nat) : Option (List Char) :=
  if validYmd y m d then some (toIso y m d) else none

/-! ## Primitive matchers for the five date regexes -/

/-- Consume exactly `n` digit characters, returning their value and the rest. -/
def takeDigitsAcc : Nat → Nat → List Char → Option (Nat × List Char)
  | acc, 0, cs => some (acc, cs)
  | _, _ + 1, [] => none
  | acc, n + 1, c :: cs =>
      if c.isDigit then takeDigitsAcc (acc * 10 + digitVal c) n cs else none

def takeDigits (n : Nat) (cs : List Char) : Option (Nat × List Char) :=
  takeDigitsAcc 0 n cs

/-- Consume one literal character. -/
def takeLit (x : Char) : List Char → Option (List Char)
  | [] => none
  | c :: cs => if c = x then some cs else none

/-- Consume one separator of the regex class slash-or-hyphen. -/
def takeSep : List Char → Option (List Char)
  | [] => none
  | c :: cs => if c = '/' || c = '-' then some cs else none

/-- Consume `\s+`: at least one Python-whitespace character, maximally
(all five patterns follow `\s+` with a non-space class, so the greedy
maximal run is the only viable one). -/
def takeWs1 : List Char → Option (List Char)
  | [] => none
  | c :: cs => if isPySpace c then some (cs.dropWhile isPySpace) else none

/-- Try `(\d{4})-(\d{2})-(\d{2})` at the current position; payload `(y, m, d)`. -/
def matchIsoAt (cs : List Char) : Option (Nat × Nat × Nat) := do
  let (y, r) ← takeDigits 4 cs
  let r ← takeLit '-' r
  let (m, r) ← takeDigits 2 r
  let r ← takeLit '-' r
  let (d, _) ← takeDigits 2 r
  pure (y, m, d)

/-- Try `(\d{2})sep(\d{2})sep(\d{4})` at the current position; payload
`(d, m, y)` in the group order of the `%d/%m/%Y`-style formats. -/
def matchDmyAt (sep : Char) (cs : List Char) : Option (Nat × Nat × Nat) := do
  let (d, r) ← takeDigits 2 cs
  let r ← takeLit sep r
  let (m, r) ← takeDigits 2 r
  let r ← takeLit sep r
  let (y, _) ← takeDigits 4 r
  pure (d, m, y)

/-- Try `(\d{2})/(\d{2})/(\d{2})` at the current position; payload `(d, m, yy)`
with the raw two-digit year. -/
def matchDmy2At (cs : List Char) : Option (Nat × Nat × Nat) := do
  let (d, r) ← takeDigits 2 cs
  let r ← takeLit '/' r
  let (m, r) ← takeDigits 2 r
  let r ← takeLit '/' r
  let (yy, _) ← takeDigits 2 r
  pure (d, m, yy)

/-- After the day of the month-name pattern: `,?\s+(\d{4})`.  The optional
comma is taken when present (not taking it would leave the comma under
`\s+`, which fails, so the regex's backtracking agrees). -/
def monYearTail (cs : List Char) : Option Nat := do
  let r := match cs with
    | ',' :: t => t
    | _ => cs
  let r ← takeWs1 r
  let (y, _) ← takeDigits 4 r
  pure y

/-- Try `(\w{3})\s+(\d{1,2}),?\s+(\d{4})` at the current position; payload
`(month word, day, year)`.  `\d{1,2}` is greedy: two digits are preferred,
falling back to one when the tail fails. -/
def matchMonAt : List Char → Option (List Char × Nat × Nat)
  | a :: b :: c :: r =>
      if isWordChar a && isWordChar b && isWordChar c then do
        let r ← takeWs1 r
        (do
          let (d, r2) ← takeDigits 2 r
          let y ← monYearTail r2
          pure ([a, b, c], d, y)) <|>
        (do
          let (d, r2) ← takeDigits 1 r
          let y ← monYearTail r2
          pure ([a, b, c], d, y))
      else none
  | _ => none

/-- `re.search`: try the matcher at each position, left to right, returning
the payload of the first position where it matches. -/
def searchFirst (f : List Char → Option α) : List Char → Option α
  | [] => none
  | c :: cs =>
      match f (c :: cs) with
      | some r => some r
      | none => searchFirst f cs

/-- Case-insensitive month-abbreviation lookup performed by `strptime`'s
`%b` (C locale); `0` when the three matched word characters are not a
month abbreviation. -/
def monthNum (w : List Char) : Nat :=
  match w.map Char.toLower with
  | ['j', 'a', 'n'] => 1
  | ['f', 'e', 'b'] => 2
  | ['m', 'a', 'r'] => 3
  | ['a', 'p', 'r'] => 4
  | ['m', 'a', 'y'] => 5
  | ['j', 'u', 'n'] => 6
  | ['j', 'u', 'l'] => 7
  | ['a', 'u', 'g'] => 8
  | ['s', 'e', 'p'] => 9
  | ['o', 'c', 't'] => 10
  | ['n', 'o', 'v'] => 11
  | ['d', 'e', 'c'] => 12
  | _ => 0

/-! ## `parse_date`

The source tries five `(pattern, fmt)` pairs in order; for each, the first
`re.search` match is fed to `strptime` and a `ValueError` falls through to
the next pattern — exactly as a missing match does.  So the loop is the
first-`some` of the five per-pattern validated results below. -/

/-- First match of pattern 1 (`YYYY-MM-DD`), raw `(y, m, d)`. -/
def pat1 (cs : List Char) : Option (Nat × Nat × Nat) := searchFirst matchIsoAt cs

/-- First match of pattern 2 (`DD/MM/YYYY`), raw `(d, m, y)`. -/
def pat2 (cs : List Char) : Option (Nat × Nat × Nat) := searchFirst (matchDmyAt '/') cs

/-- First match of pattern 3 (`DD-MM-YYYY`), raw `(d, m, y)`. -/
def pat3 (cs : List Char) : Option (Nat × Nat × Nat) := searchFirst (matchDmyAt '-') cs

/-- First match of pattern 4 (`DD/MM/YY`), raw `(d, m, yy)`. -/
def pat4 (cs : List Char) : Option (Nat × Nat × Nat) := searchFirst matchDmy2At cs

/-- First match of pattern 5 (`Mon D[,] YYYY`), raw `(word, d, y)`. -/
def pat5 (cs : List Char) : Option (List Char × Nat × Nat) := searchFirst matchMonAt cs

/-- Pattern 1 with `strptime '%Y-%m-%d'` validation. -/
def pat1Date (cs : List Char) : Option (List Char) :=
  (pat1 cs).bind fun (y, m, d) => mkDate y m d

/-- Pattern 2 with `strptime '%d/%m/%Y'` validation (day first). -/
def pat2Date (cs : List Char) : Option (List Char) :=
  (pat2 cs).bind fun (d, m, y) => mkDate y m d

/-- Pattern 3 with `strptime '%d-%m-%Y'` validation (day first). -/
def pat3Date (cs : List Char) : Option (List Char) :=
  (pat3 cs).bind fun (d, m, y) => mkDate y m d

/-- Pattern 4 with `strptime '%d/%m/%y'` validation: the two-digit year is
expanded through the POSIX pivot before the calendar check. -/
def pat4Date (cs : List Char) : Option (List Char) :=
  (pat4 cs).bind fun (d, m, yy) => mkDate (y2k yy) m d

/-- Pattern 5 with `strptime '%b %d %Y'` validation (after the comma of the
matched text is removed); an unknown month abbreviation gives month `0`,
which fails validation, as `strptime` raises there. -/
def pat5Date (cs : List Char) : Option (List Char) :=
  (pat5 cs).bind fun (w, d, y) => mkDate y (monthNum w) d

/-- `parse_date`: the for-loop over the five pattern/format pairs.  A
pattern whose first match raises in `strptime` and a pattern with no match
both `continue`, so the loop returns the first pattern that matches AND
validates. -/
def parse_date (cs : List Char) : Option (List Char) :=
  match pat1Date cs with
  | some r => some r
  | none =>
  match pat2Date cs with
  | some r => some r
  | none =>
  match pat3Date cs with
  | some r => some r
  | none =>
  match pat4Date cs with
  | some r => some r
  | none =>
  match pat5Date cs with
  | some r => some r
  | none => none

/-! ## `parse_amount`

`re.sub(r'[^\d.,\-]', '', text)` keeps digits, periods, commas and every
minus sign; after `replace(',', '')` the remainder is handed to `float`,
which accepts exactly an optional leading sign followed by digits with at
most one decimal point (at least one digit); the absolute value is
returned, `ValueError` becomes `None`. -/

/-- The character class kept by the cleaning `re.sub` of `parse_amount`. -/
def isAmountKeep (c : Char) : Bool :=
  c.isDigit || c = '.' || c = ',' || c = '-'

/-- Python's `abs` on (our rational model of) floats. -/
def pyAbs (q : ℚ) : ℚ := if q < 0 then -q else q

/-- Split at the first `'.'`: integer part, and the fractional part when a
point is present. -/
def splitAtDot : List Char → List Char × Option (List Char)
  | [] => ([], none)
  | c :: rest =>
      if c = '.' then ([], some rest)
      else (c :: (splitAtDot rest).1, (splitAtDot rest).2)

/-- `float` on an unsigned literal: digits with at most one point, at least
one digit overall. -/
def parseUnsigned (cs : List Char) : Option ℚ :=
  match splitAtDot cs with
  | (ip, none) =>
      if ip ≠ [] && ip.all Char.isDigit then some (mkRat (digitsVal ip) 1) else none
  | (ip, some fp) =>
      if (ip ≠ [] || fp ≠ []) && ip.all Char.isDigit && fp.all Char.isDigit then
        some (mkRat (digitsVal ip * 10 ^ fp.length + digitsVal fp) (10 ^ fp.length))
      else none

/-- `float` on a cleaned string: optional single leading minus sign. -/
def parseFloatQ : List Char → Option ℚ
  | [] => parseUnsigned []
  | c :: rest =>
      if c = '-' then (parseUnsigned rest).map Neg.neg
      else parseUnsigned (c :: rest)

/-- `parse_amount`: clean, reject the empty string, drop commas, parse as a
float, return the absolute value; a parse failure returns `none`. -/
def parse_amount (cs : List Char) : Option ℚ :=
  if cs.filter isAmountKeep = [] then none
  else
    match parseFloatQ ((cs.filter isAmountKeep).filter (· ≠ ',')) with
    | some q => some (pyAbs q)
    | none => none

/-! ## `re.findall(r'[\d,]+\.\d{2}', line)`

The class run is greedy; since a period is not in the class, the only run
worth trying at a position is the maximal one, so no backtracking occurs.
Matches are reported left to right and scanning resumes after each match. -/

/-- Try the amount regex at the current position, returning the matched
substring. -/
def tryAmtAt (cs : List Char) : Option (List Char) :=
  match cs.dropWhile isAmtChar with
  | '.' :: d1 :: d2 :: _ =>
      if cs.takeWhile isAmtChar ≠ [] && d1.isDigit && d2.isDigit then
        some (cs.takeWhile isAmtChar ++ ['.', d1, d2])
      else none
  | _ => none

/-- Scan of `findall`: `skip` counts characters still covered by the last
match (scanning resumes after a match, Python's non-overlapping semantics). -/
def findAmountsGo : List Char → Nat → List (List Char)
  | [], _ => []
  | _ :: rest, skip + 1 => findAmountsGo rest skip
  | c :: rest, 0 =>
      match tryAmtAt (c :: rest) with
      | some m => m :: findAmountsGo rest (m.length - 1)
      | none => findAmountsGo rest 0

/-- All matches of the amount regex, in order of appearance. -/
def findAmounts (cs : List Char) : List (List Char) :=
  findAmountsGo cs 0

/-! ## Description isolation -/

/-- One step of `str.replace(pat, '')`: drop every non-overlapping
occurrence of `pat`, scanning left to right. -/
def replaceAllGo (pat : List Char) : List Char → Nat → List Char
  | [], _ => []
  | _ :: rest, skip + 1 => replaceAllGo pat rest skip
  | c :: rest, 0 =>
      if pat ≠ [] && pat.isPrefixOf (c :: rest) then
        replaceAllGo pat rest (pat.length - 1)
      else c :: replaceAllGo pat rest 0

def replaceAll (pat cs : List Char) : List Char :=
  replaceAllGo pat cs 0

/-- Exactly `n` digits, keeping only the rest of the input. -/
def digitsRun (n : Nat) (cs : List Char) : Option (List Char) :=
  (takeDigits n cs).map Prod.snd

/-- One candidate split of the generic date shape
`\d{1,2} sep \d{1,2} sep \d{2,4}` with chosen digit-group widths `a`, `b`,
`c`; yields the total matched length. -/
def shape1With (a b c : Nat) (cs : List Char) : Option Nat := do
  let r ← digitsRun a cs
  let r ← takeSep r
  let r ← digitsRun b r
  let r ← takeSep r
  let _ ← digitsRun c r
  pure (a + b + c + 2)

/-- The first generic date shape at a position.  Greedy quantifiers
backtrack longest-first, the earlier quantifier varying slowest, so the
twelve width combinations are tried in lexicographically decreasing order. -/
def tryShape1At (cs : List Char) : Option Nat :=
  shape1With 2 2 4 cs <|> shape1With 2 2 3 cs <|> shape1With 2 2 2 cs <|>
  shape1With 2 1 4 cs <|> shape1With 2 1 3 cs <|> shape1With 2 1 2 cs <|>
  shape1With 1 2 4 cs <|> shape1With 1 2 3 cs <|> shape1With 1 2 2 cs <|>
  shape1With 1 1 4 cs <|> shape1With 1 1 3 cs <|> shape1With 1 1 2 cs

/-- The second generic date shape `\d{4} sep \d{2} sep \d{2}` at a
position; fixed widths, so the matched length is always 10. -/
def tryShape2At (cs : List Char) : Option Nat := do
  let r ← digitsRun 4 cs
  let r ← takeSep r
  let r ← digitsRun 2 r
  let r ← takeSep r
  let _ ← digitsRun 2 r
  pure 10

/-- `re.sub(pattern, '', s)`: delete every non-overlapping match, scanning
left to right, via the same skip-counter device as `findall`. -/
def removeMatchesGo (tryAt : List Char → Option Nat) : List Char → Nat → List Char
  | [], _ => []
  | _ :: rest, skip + 1 => removeMatchesGo tryAt rest skip
  | c :: rest, 0 =>
      match tryAt (c :: rest) with
      | some len => removeMatchesGo tryAt rest (len - 1)
      | none => c :: removeMatchesGo tryAt rest 0

def removeMatches (tryAt : List Char → Option Nat) (cs : List Char) : List Char :=
  removeMatchesGo tryAt cs 0

/-- `str.split()` with no argument: split on runs of whitespace, no empty
words.  The accumulator holds the current word reversed. -/
def splitWsGo : List Char → List Char → List (List Char)
  | [], acc => if acc = [] then [] else [acc.reverse]
  | c :: rest, acc =>
      if isPySpace c then
        if acc = [] then splitWsGo rest [] else acc.reverse :: splitWsGo rest []
      else splitWsGo rest (c :: acc)

def pyWords (cs : List Char) : List (List Char) :=
  splitWsGo cs []

def joinSpace : List (List Char) → List Char
  | [] => []
  | [w] => w
  | w :: ws => w ++ ' ' :: joinSpace ws

/-- `' '.join(s.split())` (the trailing `.strip()` of the source is a
no-op on the join's output). -/
def collapseWs (cs : List Char) : List Char :=
  joinSpace (pyWords cs)

/-! ## Per-line extraction and the pipeline -/

/-- A transaction record: the three fields of the dicts built by
`extract_transactions_from_lines`. -/
structure Txn where
  date : List Char
  description : List Char
  amount : ℚ
deriving DecidableEq

/-- Description isolation: remove every found amount substring (all
occurrences each, in the order `findall` returned them), then every match
of the two generic date shapes, then collapse whitespace. -/
def isolateDescription (cs : List Char) (amounts : List (List Char)) : List Char :=
  collapseWs (removeMatches tryShape2At (removeMatches tryShape1At
    (amounts.foldl (fun d a => replaceAll a d) cs)))

/-- The body of the per-line loop of `extract_transactions_from_lines`:
date, amounts, last amount parsed and positive, description isolated and
longer than 3, truncated to 100 characters. -/
def extractLine (cs : List Char) : Option Txn :=
  match parse_date cs with
  | none => none
  | some date =>
      match (findAmounts cs).getLast? with
      | none => none
      | some lastAmt =>
          match parse_amount lastAmt with
          | none => none
          | some amount =>
              if amount ≤ 0 then none
              else
                if 3 < (isolateDescription cs (findAmounts cs)).length then
                  some ⟨date, (isolateDescription cs (findAmounts cs)).take 100, amount⟩
                else none

/-- `extract_transactions_from_lines`: the loop appends at most one record
per line, in order. -/
def extract_transactions_from_lines (lines : List (List Char)) : List Txn :=
  lines.filterMap extractLine

/-! ## Deduplication (the loop in the `extract` endpoint)

`key = f"{txn['date']}_{txn['amount']}_{txn['description'][:20]}"`; the
amount interpolates through `str` of the float.  For the cent-valued
amounts the pipeline produces, `str` prints the integer part, a point, and
the fraction with a trailing zero stripped but at least one digit kept. -/

/-- `str(float(n / 100))` for a cents value `n` (exact inside double
precision, which covers every amount a statement line can carry). -/
def centsStr (n : Nat) : List Char :=
  natRepr (n / 100) ++ '.' ::
    (if n % 100 = 0 then ['0']
     else if n % 10 = 0 then [digitChar ((n % 100) / 10)]
     else [digitChar ((n % 100) / 10), digitChar (n % 10)])

/-- `str` of the amount as interpolated into the deduplication key.  The
pipeline only ever stores positive cent-valued amounts (see
`extractLine_amount_cents`), for which the condition holds and the cents
value `q.num * (100 / q.den)` recovers the numerator of `q` over 100. -/
def pyFloatStr (q : ℚ) : List Char :=
  if 0 ≤ q.num ∧ 100 % q.den = 0 then centsStr (q.num.toNat * (100 / q.den)) else ['?']

/-- The deduplication key of a transaction. -/
def keyOf (t : Txn) : List Char :=
  t.date ++ '_' :: (pyFloatStr t.amount ++ '_' :: t.description.take 20)

/-- The dedup loop: `seen` is the set of keys already emitted. -/
def dedupeGo (seen : List (List Char)) : List Txn → List Txn
  | [] => []
  | t :: ts =>
      if keyOf t ∈ seen then dedupeGo seen ts
      else t :: dedupeGo (keyOf t :: seen) ts

def dedupe (ts : List Txn) : List Txn :=
  dedupeGo [] ts

/-- The extraction pipeline as the endpoint composes it: per-line
extraction in input order, then deduplication. -/
def pipelineRun (lines : List (List Char)) : List Txn :=
  dedupe (extract_transactions_from_lines lines)

/-! ## Spec-side definitions

These follow the wording of the specification, to be compared with the
source-derived definitions above. -/

/-- Modelled from the spec's deduplication contract: a candidate is kept
exactly when no earlier candidate of the sequence (kept or not) has the
same key; emitted in original order, first occurrence retained whole. -/
def specDedupeGo (prior : List Txn) : List Txn → List Txn
  | [] => []
  | t :: ts =>
      if prior.all (fun u => keyOf u != keyOf t) then
        t :: specDedupeGo (prior ++ [t]) ts
      else specDedupeGo (prior ++ [t]) ts

def specDedupe (ts : List Txn) : List Txn :=
  specDedupeGo [] ts

/-- Modelled from claim C6's wording: strip every character except digits,
commas, periods, and a minus sign in leading position. -/
def claimClean : List Char → List Char
  | [] => []
  | c :: rest =>
      if c = '-' then '-' :: rest.filter (fun x => x.isDigit || x = '.' || x = ',')
      else (c :: rest).filter (fun x => x.isDigit || x = '.' || x = ',')

/-- Modelled from claim C6's wording: `parse_amount` with only a leading
minus sign retained by the cleaning step. -/
def claimParseAmount (cs : List Char) : Option ℚ :=
  if claimClean cs = [] then none
  else
    match parseFloatQ ((claimClean cs).filter (· ≠ ',')) with
    | some q => some (pyAbs q)
    | none => none

/-- A decimal numeral: an optional leading minus sign, then digits with at
most one decimal point and at least one digit (what `float` accepts on the
cleaned alphabet). -/
def isUnsignedNumeral (cs : List Char) : Bool :=
  cs.all (fun c => c.isDigit || c = '.') && cs.count '.' ≤ 1 && cs.any Char.isDigit

def isNumeral : List Char → Bool
  | [] => isUnsignedNumeral []
  | c :: rest => if c = '-' then isUnsignedNumeral rest else isUnsignedNumeral (c :: rest)

/-- Value of an unsigned decimal numeral. -/
def unsignedVal (cs : List Char) : ℚ :=
  match splitAtDot cs with
  | (ip, none) => mkRat (digitsVal ip) 1
  | (ip, some fp) => mkRat (digitsVal ip * 10 ^ fp.length + digitsVal fp) (10 ^ fp.length)

def numeralVal : List Char → ℚ
  | [] => unsignedVal []
  | c :: rest => if c = '-' then -unsignedVal rest else unsignedVal (c :: rest)

/-- The amended reading of claim C6: every minus sign survives the
cleaning; the result is `none` exactly when the cleaned string is empty or
the de-comma'd remainder is not a decimal numeral, and otherwise the
numeral's absolute value. -/
def amendedParseAmount (cs : List Char) : Option ℚ :=
  if cs.filter isAmountKeep ≠ [] && isNumeral ((cs.filter isAmountKeep).filter (· ≠ ',')) then
    some (pyAbs (numeralVal ((cs.filter isAmountKeep).filter (· ≠ ','))))
  else none

/-- The monetary substring shape of claim C8: digits optionally comma
grouped, then a decimal point and exactly two digits. -/
def AmtShape (mid : List Char) : Prop :=
  ∃ run d1 d2, mid = run ++ '.' :: d1 :: d2 :: [] ∧ run ≠ [] ∧
    (∀ c ∈ run, isAmtChar c = true) ∧ d1.isDigit = true ∧ d2.isDigit = true

/-! ## Deduplication lemmas -/

theorem dedupeGo_sublist (ts : List Txn) :
    ∀ seen, List.Sublist (dedupeGo seen ts) ts := by
  induction ts with
  | nil => intro seen; simp [dedupeGo]
  | cons t ts ih =>
      intro seen
      unfold dedupeGo
      by_cases hk : keyOf t ∈ seen
      · rw [if_pos hk]; exact (ih seen).cons t
      · rw [if_neg hk]; exact (ih (keyOf t :: seen)).cons₂ t

theorem dedupeGo_eq_specGo (ts : List Txn) :
    ∀ (seen : List (List Char)) (prior : List Txn),
      (∀ k, k ∈ seen ↔ ∃ u ∈ prior, keyOf u = k) →
      dedupeGo seen ts = specDedupeGo prior ts := by
  induction ts with
  | nil => intro seen prior _; simp [dedupeGo, specDedupeGo]
  | cons t ts ih =>
      intro seen prior h
      have hcond : (prior.all fun u => keyOf u != keyOf t) = true ↔ keyOf t ∉ seen := by
        simp only [List.all_eq_true, bne_iff_ne, ne_eq, h]
        constructor
        · rintro hall ⟨u, hu, hk⟩; exact hall u hu hk
        · intro hne u hu hk; exact hne ⟨u, hu, hk⟩
      unfold dedupeGo specDedupeGo
      by_cases hk : keyOf t ∈ seen
      · rw [if_pos hk, if_neg (by simp [hcond, hk])]
        refine ih seen (prior ++ [t]) ?_
        intro k
        rw [h k]
        constructor
        · rintro ⟨u, hu, he⟩; exact ⟨u, by simp [hu], he⟩
        · rintro ⟨u, hu, he⟩
          rcases List.mem_append.1 hu with hu | hu
          · exact ⟨u, hu, he⟩
          · simp only [List.mem_singleton] at hu
            subst hu; subst he
            exact ((h (keyOf u)).1 hk).imp fun v hv => hv
      · rw [if_neg hk, if_pos (hcond.2 hk)]
        refine congrArg (t :: ·) (ih (keyOf t :: seen) (prior ++ [t]) ?_)
        intro k
        simp only [List.mem_cons, h k]
        constructor
        · rintro (he | ⟨u, hu, he⟩)
          · exact ⟨t, by simp, he.symm⟩
          · exact ⟨u, by simp [hu], he⟩
        · rintro ⟨u, hu, he⟩
          rcases List.mem_append.1 hu with hu | hu
          · exact Or.inr ⟨u, hu, he⟩
          · simp only [List.mem_singleton] at hu
            subst hu; exact Or.inl he.symm

theorem dedupe_eq_specDedupe (ts : List Txn) : dedupe ts = specDedupe ts :=
  dedupeGo_eq_specGo ts [] [] (by simp)

theorem dedupeGo_idem (ts : List Txn) :
    ∀ seen, dedupeGo seen (dedupeGo seen ts) = dedupeGo seen ts := by
  induction ts with
  | nil => intro seen; simp [dedupeGo]
  | cons t ts ih =>
      intro seen
      by_cases hk : keyOf t ∈ seen
      · simp only [dedupeGo, if_pos hk]
        exact ih seen
      · simp only [dedupeGo, if_neg hk]
        rw [ih (keyOf t :: seen)]

/-- Claim C3: `dedupe` emits exactly the candidates whose key has not
occurred earlier in the sequence (the spec-side `specDedupe` checks every
earlier candidate of the sequence), keeping the first occurrence whole,
as a subsequence of the input — so in the original relative order. -/
theorem claim_C3_dedupe_first_occurrence :
    ∀ ts : List Txn, dedupe ts = specDedupe ts ∧ List.Sublist (dedupe ts) ts :=
  fun ts => ⟨dedupe_eq_specDedupe ts, dedupeGo_sublist ts []⟩

/-- Claim C5: deduplication is idempotent. -/
theorem claim_C5_dedupe_idempotent :
    ∀ ts : List Txn, dedupe (dedupe ts) = dedupe ts :=
  fun ts => dedupeGo_idem ts []

/-! ## Date-recognizer characterization -/

theorem mkDate_eq_some {y m d : Nat} {ds : List Char} (h : mkDate y m d = some ds) :
    validYmd y m d = true ∧ ds = toIso y m d := by
  unfold mkDate at h
  by_cases hv : validYmd y m d = true
  · rw [if_pos hv] at h
    exact ⟨hv, (Option.some_inj.1 h).symm⟩
  · rw [if_neg hv] at h
    exact absurd h (by simp)

/-- Every date `parse_date` returns is the `toIso` rendering of a
calendar-validated date. -/
theorem parse_date_shape {cs ds : List Char} (h : parse_date cs = some ds) :
    ∃ y m d, validYmd y m d = true ∧ ds = toIso y m d := by
  unfold parse_date at h
  rcases h1 : pat1Date cs with _ | r1 <;> rw [h1] at h
  case some =>
    obtain ⟨⟨y, m, d⟩, _, hmk⟩ := Option.bind_eq_some.1 h1
    obtain ⟨hv, rfl⟩ := mkDate_eq_some hmk
    exact ⟨y, m, d, hv, (Option.some_inj.1 h).symm⟩
  rcases h2 : pat2Date cs with _ | r2 <;> rw [h2] at h
  case some =>
    obtain ⟨⟨d, m, y⟩, _, hmk⟩ := Option.bind_eq_some.1 h2
    obtain ⟨hv, rfl⟩ := mkDate_eq_some hmk
    exact ⟨y, m, d, hv, (Option.some_inj.1 h).symm⟩
  rcases h3 : pat3Date cs with _ | r3 <;> rw [h3] at h
  case some =>
    obtain ⟨⟨d, m, y⟩, _, hmk⟩ := Option.bind_eq_some.1 h3
    obtain ⟨hv, rfl⟩ := mkDate_eq_some hmk
    exact ⟨y, m, d, hv, (Option.some_inj.1 h).symm⟩
  rcases h4 : pat4Date cs with _ | r4 <;> rw [h4] at h
  case some =>
    obtain ⟨⟨d, m, yy⟩, _, hmk⟩ := Option.bind_eq_some.1 h4
    obtain ⟨hv, rfl⟩ := mkDate_eq_some hmk
    exact ⟨y2k yy, m, d, hv, (Option.some_inj.1 h).symm⟩
  rcases h5 : pat5Date cs with _ | r5 <;> rw [h5] at h
  case some =>
    obtain ⟨⟨w, d, y⟩, _, hmk⟩ := Option.bind_eq_some.1 h5
    obtain ⟨hv, rfl⟩ := mkDate_eq_some hmk
    exact ⟨y, monthNum w, d, hv, (Option.some_inj.1 h).symm⟩
  case none => exact absurd h (by simp)

/-- `parse_date` returns the result of the first of the five
pattern/format pairs whose first regex match validates; a pattern that
does not match and a pattern whose match fails calendar validation both
fall through to the next one. -/
theorem parse_date_first_valid (cs ds : List Char) :
    parse_date cs = some ds ↔
      pat1Date cs = some ds ∨
      (pat1Date cs = none ∧ pat2Date cs = some ds) ∨
      (pat1Date cs = none ∧ pat2Date cs = none ∧ pat3Date cs = some ds) ∨
      (pat1Date cs = none ∧ pat2Date cs = none ∧ pat3Date cs = none ∧
        pat4Date cs = some ds) ∨
      (pat1Date cs = none ∧ pat2Date cs = none ∧ pat3Date cs = none ∧
        pat4Date cs = none ∧ pat5Date cs = some ds) := by
  unfold parse_date
  cases h1 : pat1Date cs <;> cases h2 : pat2Date cs <;> cases h3 : pat3Date cs <;>
    cases h4 : pat4Date cs <;> cases h5 : pat5Date cs <;> simp

/-- Claim C2: the five date patterns are tried in fixed priority order and
the first whose first match in the line validates wins; a pattern whose
match fails calendar validation still lets later patterns run (in the
example line, pattern 1 matches "2024-13-01", month 13 fails, and the
DD/MM/YYYY pattern supplies the result); the date used is the first by
pattern order, not the leftmost in the text (in the second example the ISO
substring on the right wins over the leftmost valid DD/MM/YYYY one). -/
theorem claim_C2_pattern_priority :
    (∀ cs ds : List Char,
      parse_date cs = some ds ↔
        pat1Date cs = some ds ∨
        (pat1Date cs = none ∧ pat2Date cs = some ds) ∨
        (pat1Date cs = none ∧ pat2Date cs = none ∧ pat3Date cs = some ds) ∨
        (pat1Date cs = none ∧ pat2Date cs = none ∧ pat3Date cs = none ∧
          pat4Date cs = some ds) ∨
        (pat1Date cs = none ∧ pat2Date cs = none ∧ pat3Date cs = none ∧
          pat4Date cs = none ∧ pat5Date cs = some ds)) ∧
    pat1 "2024-13-01 05/06/2024".data = some (2024, 13, 1) ∧
    validYmd 2024 13 1 = false ∧
    parse_date "2024-13-01 05/06/2024".data = some "2024-06-05".data ∧
    pat2Date "05/06/2024 X 2024-01-02".data = some "2024-06-05".data ∧
    parse_date "05/06/2024 X 2024-01-02".data = some "2024-01-02".data :=
  ⟨parse_date_first_valid, by decide, by decide, by decide, by decide, by decide⟩

/-- Claim C9: a date recognized through the DD/MM/YY pattern expands its
two-digit year by the POSIX pivot: 2000 + YY for YY up to 68, 1900 + YY
for 69 to 99. -/
theorem claim_C9_two_digit_year_pivot (cs : List Char) (d m yy : Nat)
    (h1 : pat1Date cs = none) (h2 : pat2Date cs = none) (h3 : pat3Date cs = none)
    (h4 : pat4 cs = some (d, m, yy)) (hv : validYmd (y2k yy) m d = true) :
    parse_date cs = some (toIso (y2k yy) m d) ∧
      y2k yy = (if yy ≤ 68 then 2000 + yy else 1900 + yy) := by
  constructor
  · unfold parse_date
    rw [h1, h2, h3]
    unfold pat4Date
    rw [h4]
    simp [mkDate, hv]
  · unfold y2k
    split_ifs <;> omega

/-- Witness for claim C9 at the concrete lines "01/02/69" and "01/02/24". -/
theorem claim_C9_witness :
    parse_date "01/02/69".data = some "1969-02-01".data ∧
      parse_date "01/02/24".data = some "2024-02-01".data := by
  constructor
  · exact (claim_C9_two_digit_year_pivot "01/02/69".data 1 2 69 (by decide) (by decide)
      (by decide) (by decide) (by decide)).1.trans (by decide)
  · exact (claim_C9_two_digit_year_pivot "01/02/24".data 1 2 24 (by decide) (by decide)
      (by decide) (by decide) (by decide)).1.trans (by decide)

/-! ## Whitespace collapse: the words produced by `str.split()` are
nonempty and space-free, and joining them with single spaces is a fixed
point of the collapse. -/

theorem splitWsGo_words (cs : List Char) :
    ∀ acc, (∀ c ∈ acc, isPySpace c = false) →
      ∀ w ∈ splitWsGo cs acc, w ≠ [] ∧ ∀ c ∈ w, isPySpace c = false := by
  induction cs with
  | nil =>
      intro acc hacc w hw
      unfold splitWsGo at hw
      by_cases ha : acc = []
      · simp [ha] at hw
      · rw [if_neg ha] at hw
        simp only [List.mem_singleton] at hw
        subst hw
        refine ⟨by simpa using ha, ?_⟩
        intro c hc
        exact hacc c (List.mem_reverse.1 hc)
  | cons c rest ih =>
      intro acc hacc w hw
      unfold splitWsGo at hw
      by_cases hsp : isPySpace c = true
      · rw [if_pos hsp] at hw
        by_cases ha : acc = []
        · rw [if_pos ha] at hw
          exact ih [] (by simp) w hw
        · rw [if_neg ha] at hw
          rcases List.mem_cons.1 hw with hw | hw
          · subst hw
            refine ⟨by simpa using ha, ?_⟩
            intro x hx
            exact hacc x (List.mem_reverse.1 hx)
          · exact ih [] (by simp) w hw
      · rw [if_neg hsp] at hw
        refine ih (c :: acc) ?_ w hw
        intro x hx
        rcases List.mem_cons.1 hx with hx | hx
        · subst hx; exact Bool.eq_false_iff.2 hsp
        · exact hacc x hx

theorem splitWsGo_append_noSpace (w : List Char) :
    ∀ rest acc, (∀ c ∈ w, isPySpace c = false) →
      splitWsGo (w ++ rest) acc = splitWsGo rest (w.reverse ++ acc) := by
  induction w with
  | nil => intro rest acc _; simp
  | cons c w ih =>
      intro rest acc h
      have hc : isPySpace c = false := h c (by simp)
      have step : splitWsGo (c :: (w ++ rest)) acc = splitWsGo (w ++ rest) (c :: acc) := by
        show (if isPySpace c = true then
            if acc = [] then splitWsGo (w ++ rest) []
            else acc.reverse :: splitWsGo (w ++ rest) []
          else splitWsGo (w ++ rest) (c :: acc)) = splitWsGo (w ++ rest) (c :: acc)
        rw [if_neg (by simp [hc])]
      show splitWsGo (c :: (w ++ rest)) acc = splitWsGo rest ((c :: w).reverse ++ acc)
      rw [step, ih rest (c :: acc) (fun x hx => h x (by simp [hx]))]
      simp

theorem pyWords_joinSpace (ws : List (List Char)) :
    (∀ w ∈ ws, w ≠ [] ∧ ∀ c ∈ w, isPySpace c = false) →
      pyWords (joinSpace ws) = ws := by
  induction ws with
  | nil => intro _; simp [joinSpace, pyWords, splitWsGo]
  | cons w ws ih =>
      intro h
      have hw := h w (by simp)
      cases ws with
      | nil =>
          show pyWords (joinSpace [w]) = [w]
          unfold joinSpace pyWords
          rw [← List.append_nil w, splitWsGo_append_noSpace w [] [] hw.2]
          unfold splitWsGo
          rw [if_neg (by simp [hw.1]), List.reverse_append, List.reverse_reverse]
          simp
      | cons w2 ws2 =>
          show pyWords (w ++ ' ' :: joinSpace (w2 :: ws2)) = w :: w2 :: ws2
          unfold pyWords
          rw [splitWsGo_append_noSpace w (' ' :: joinSpace (w2 :: ws2)) [] hw.2]
          unfold splitWsGo
          rw [if_pos (by decide), if_neg (by simp [hw.1]), List.append_nil,
            List.reverse_reverse]
          exact congrArg (w :: ·) (ih (fun u hu => h u (by simp [hu])))

theorem collapseWs_idem (cs : List Char) : collapseWs (collapseWs cs) = collapseWs cs := by
  unfold collapseWs
  rw [pyWords_joinSpace (pyWords cs) (fun w hw => splitWsGo_words cs [] (by simp) w hw)]

/-! ## Shape of the amount matches and of extracted candidates -/

theorem isDigit_ne_facts {c : Char} (h : c.isDigit = true) :
    c ≠ ',' ∧ c ≠ '.' ∧ c ≠ '-' := by
  refine ⟨?_, ?_, ?_⟩ <;> rintro rfl <;> exact absurd h (by decide)

theorem tryAmtAt_shape {cs m : List Char} (h : tryAmtAt cs = some m) :
    AmtShape m ∧ ∃ post, cs = m ++ post := by
  unfold tryAmtAt at h
  split at h
  next d1 d2 tail heq =>
    split at h
    next hcond =>
      simp only [Bool.and_eq_true, decide_eq_true_eq] at hcond
      obtain ⟨⟨hne, h1⟩, h2⟩ := hcond
      obtain rfl : cs.takeWhile isAmtChar ++ ['.', d1, d2] = m := Option.some_inj.1 h
      constructor
      · exact ⟨cs.takeWhile isAmtChar, d1, d2, rfl, hne,
          fun c hc => List.mem_takeWhile_imp hc, h1, h2⟩
      · refine ⟨tail, ?_⟩
        conv_lhs => rw [← List.takeWhile_append_dropWhile isAmtChar cs]
        rw [heq]
        simp
    next => exact absurd h (by simp)
  next => exact absurd h (by simp)

theorem findAmountsGo_shape {cs : List Char} :
    ∀ k {m : List Char}, m ∈ findAmountsGo cs k →
      AmtShape m ∧ ∃ pre post, cs = pre ++ m ++ post := by
  induction cs with
  | nil => intro k m hm; simp [findAmountsGo] at hm
  | cons c rest ih =>
      intro k m hm
      match k with
      | skip + 1 =>
          obtain ⟨hs, pre, post, hdec⟩ := ih skip hm
          exact ⟨hs, c :: pre, post, by simp [hdec]⟩
      | 0 =>
          rw [show findAmountsGo (c :: rest) 0 =
              (match tryAmtAt (c :: rest) with
               | some m0 => m0 :: findAmountsGo rest (m0.length - 1)
               | none => findAmountsGo rest 0) from rfl] at hm
          split at hm
          next m0 heq =>
            rcases List.mem_cons.1 hm with hm | hm
            · subst hm
              obtain ⟨hs, post, hdec⟩ := tryAmtAt_shape heq
              exact ⟨hs, [], post, by simpa using hdec⟩
            · obtain ⟨hs, pre, post, hdec⟩ := ih (m0.length - 1) hm
              exact ⟨hs, c :: pre, post, by simp [hdec]⟩
          next =>
            obtain ⟨hs, pre, post, hdec⟩ := ih 0 hm
            exact ⟨hs, c :: pre, post, by simp [hdec]⟩

theorem findAmounts_shape {cs m : List Char} (h : m ∈ findAmounts cs) :
    AmtShape m ∧ ∃ pre post, cs = pre ++ m ++ post :=
  findAmountsGo_shape 0 h

theorem splitAtDot_append (xs ys : List Char) :
    (∀ c ∈ xs, c ≠ '.') → splitAtDot (xs ++ '.' :: ys) = (xs, some ys) := by
  induction xs with
  | nil =>
      intro _
      show splitAtDot ('.' :: ys) = ([], some ys)
      unfold splitAtDot
      rw [if_pos rfl]
  | cons c xs ih =>
      intro hx
      show splitAtDot (c :: (xs ++ '.' :: ys)) = (c :: xs, some ys)
      unfold splitAtDot
      rw [if_neg (hx c (by simp)), ih (fun x hx2 => hx x (by simp [hx2]))]

/-- On an amount-shaped string, `parse_amount` yields exactly the cents
value over 100. -/
theorem parse_amount_of_shape {m : List Char} (hs : AmtShape m) :
    ∃ N : Nat, parse_amount m = some (mkRat N 100) := by
  obtain ⟨run, d1, d2, rfl, hne, hrun, h1, h2⟩ := hs
  have hkeep : ∀ c ∈ run ++ '.' :: d1 :: d2 :: [], isAmountKeep c = true := by
    intro c hc
    rcases List.mem_append.1 hc with hc | hc
    · rcases (by simpa [isAmtChar] using hrun c hc : c.isDigit = true ∨ c = ',') with hd | hd
      · simp [isAmountKeep, hd]
      · subst hd; decide
    · rcases List.mem_cons.1 hc with rfl | hc
      · decide
      rcases List.mem_cons.1 hc with rfl | hc
      · simp [isAmountKeep, h1]
      rcases List.mem_cons.1 hc with rfl | hc
      · simp [isAmountKeep, h2]
      · simp at hc
  have hfilter : (run ++ '.' :: d1 :: d2 :: []).filter isAmountKeep =
      run ++ '.' :: d1 :: d2 :: [] := List.filter_eq_self.2 hkeep
  have hbody : (run ++ '.' :: d1 :: d2 :: []).filter (· ≠ ',') =
      run.filter (· ≠ ',') ++ '.' :: d1 :: d2 :: [] := by
    rw [List.filter_append]
    congr 1
    refine List.filter_eq_self.2 ?_
    intro c hc
    rcases List.mem_cons.1 hc with rfl | hc
    · decide
    rcases List.mem_cons.1 hc with rfl | hc
    · simpa using (isDigit_ne_facts h1).1
    rcases List.mem_cons.1 hc with rfl | hc
    · simpa using (isDigit_ne_facts h2).1
    · simp at hc
  have hdigits : ∀ c ∈ run.filter (· ≠ ','), c.isDigit = true := by
    intro c hc
    have hmem := List.mem_of_mem_filter hc
    have hne2 : c ≠ ',' := by simpa using List.of_mem_filter hc
    rcases (by simpa [isAmtChar] using hrun c hmem : c.isDigit = true ∨ c = ',') with hd | hd
    · exact hd
    · exact absurd hd hne2
  have hnodot : ∀ c ∈ run.filter (· ≠ ','), c ≠ '.' :=
    fun c hc => (isDigit_ne_facts (hdigits c hc)).2.1
  have hsplit := splitAtDot_append (run.filter (· ≠ ',')) (d1 :: d2 :: []) hnodot
  have hpu : parseUnsigned (run.filter (· ≠ ',') ++ '.' :: d1 :: d2 :: []) =
      some (mkRat (digitsVal (run.filter (· ≠ ',')) * 10 ^ (d1 :: d2 :: []).length +
        digitsVal (d1 :: d2 :: [])) (10 ^ (d1 :: d2 :: []).length)) := by
    unfold parseUnsigned
    simp only [hsplit]
    rw [if_pos ?_]
    · simp only [Bool.and_eq_true, Bool.or_eq_true, decide_eq_true_eq, List.all_eq_true]
      refine ⟨⟨Or.inr (by simp), hdigits⟩, ?_⟩
      intro c hc
      rcases List.mem_cons.1 hc with rfl | hc
      · exact h1
      rcases List.mem_cons.1 hc with rfl | hc
      · exact h2
      · simp at hc
  have hfq : parseFloatQ (run.filter (· ≠ ',') ++ '.' :: d1 :: d2 :: []) =
      parseUnsigned (run.filter (· ≠ ',') ++ '.' :: d1 :: d2 :: []) := by
    cases hrf : run.filter (· ≠ ',') with
    | nil => rfl
    | cons c0 r0 =>
        have hc0 : c0.isDigit = true := hdigits c0 (by rw [hrf]; simp)
        show (if c0 = '-' then Option.map Neg.neg (parseUnsigned (r0 ++ '.' :: d1 :: d2 :: []))
            else parseUnsigned (c0 :: (r0 ++ '.' :: d1 :: d2 :: []))) =
          parseUnsigned (c0 :: (r0 ++ '.' :: d1 :: d2 :: []))
        rw [if_neg (isDigit_ne_facts hc0).2.2]
  refine ⟨digitsVal (run.filter (· ≠ ',')) * 100 + digitsVal (d1 :: d2 :: []), ?_⟩
  unfold parse_amount
  rw [hfilter, hbody, if_neg (by simp), hfq, hpu]
  show some (pyAbs (mkRat (digitsVal (run.filter (· ≠ ',')) * 100 +
      digitsVal (d1 :: d2 :: []) : Nat) 100)) =
    some (mkRat (digitsVal (run.filter (· ≠ ',')) * 100 + digitsVal (d1 :: d2 :: []) : Nat) 100)
  have hnn : (0:ℚ) ≤ mkRat (digitsVal (run.filter (· ≠ ',')) * 100 +
      digitsVal (d1 :: d2 :: []) : Nat) 100 :=
    Rat.mkRat_nonneg (Int.natCast_nonneg _) _
  unfold pyAbs
  rw [if_neg (not_lt.2 hnn)]

/-- Everything `extract_transactions_from_lines` emits: a validated date
rendered by `toIso`, a description that is a 100-character truncation of a
whitespace-collapsed string longer than 3 characters, and a positive
cent-valued amount. -/
theorem extractLine_some_spec {cs : List Char} {t : Txn} (h : extractLine cs = some t) :
    (∃ y m d, validYmd y m d = true ∧ t.date = toIso y m d) ∧
    (∃ full, t.description = full.take 100 ∧ collapseWs full = full ∧ 3 < full.length) ∧
    (∃ n : Nat, 1 ≤ n ∧ t.amount = mkRat n 100) := by
  unfold extractLine at h
  split at h
  next => exact absurd h (by simp)
  next date hpd =>
    split at h
    next => exact absurd h (by simp)
    next lastAmt hgl =>
      split at h
      next => exact absurd h (by simp)
      next amount hpa =>
        split at h
        next => exact absurd h (by simp)
        next hpos =>
          split at h
          next hlen =>
            obtain rfl : (⟨date, (isolateDescription cs (findAmounts cs)).take 100,
                amount⟩ : Txn) = t := Option.some_inj.1 h
            refine ⟨parse_date_shape hpd,
              ⟨isolateDescription cs (findAmounts cs), rfl, ?_, hlen⟩, ?_⟩
            · unfold isolateDescription
              exact collapseWs_idem _
            · have hmem : lastAmt ∈ findAmounts cs := List.mem_of_getLast?_eq_some hgl
              obtain ⟨hsh, _⟩ := findAmounts_shape hmem
              obtain ⟨N, hN⟩ := parse_amount_of_shape hsh
              rw [hN] at hpa
              have hamt : amount = mkRat N 100 := (Option.some_inj.1 hpa).symm
              refine ⟨N, ?_, hamt⟩
              rcases Nat.eq_zero_or_pos N with rfl | hNpos
              · exact absurd (le_of_eq (by rw [hamt]; decide)) hpos
              · exact hNpos
          next => exact absurd h (by simp)

/-! ## Decimal rendering: value recovery, digit classification, injectivity -/

theorem digitVal_digitChar : ∀ d, d < 10 → digitVal (digitChar d) = d := by decide

theorem digitChar_isDigit : ∀ d, d < 10 → (digitChar d).isDigit = true := by decide

theorem digitChar_inj : ∀ a, a < 10 → ∀ b, b < 10 → digitChar a = digitChar b → a = b := by
  decide

theorem natDigitsGo_zero : ∀ fuel, natDigitsGo fuel 0 = [] := by
  intro fuel; cases fuel <;> rfl

theorem digitsVal_append_singleton (xs : List Char) (c : Char) :
    digitsVal (xs ++ [c]) = digitsVal xs * 10 + digitVal c := by
  unfold digitsVal
  rw [List.foldl_append]
  rfl

theorem digitsVal_natDigitsGo : ∀ fuel n, 1 ≤ n → n ≤ fuel →
    digitsVal (natDigitsGo fuel n) = n := by
  intro fuel
  induction fuel with
  | zero => intro n h1 h2; omega
  | succ f ih =>
      intro n h1 h2
      match n, h1 with
      | n' + 1, _ =>
        show digitsVal (natDigitsGo f ((n' + 1) / 10) ++ [digitChar ((n' + 1) % 10)]) = n' + 1
        rw [digitsVal_append_singleton,
          digitVal_digitChar ((n' + 1) % 10) (Nat.mod_lt _ (by norm_num))]
        rcases Nat.eq_zero_or_pos ((n' + 1) / 10) with hz | hpos
        · rw [hz, natDigitsGo_zero]
          show 0 * 10 + (n' + 1) % 10 = n' + 1
          omega
        · rw [ih ((n' + 1) / 10) hpos (by omega)]
          omega

theorem natRepr_val : ∀ n, digitsVal (natRepr n) = n := by
  intro n
  unfold natRepr
  rcases Nat.eq_zero_or_pos n with rfl | h
  · rw [if_pos rfl]; rfl
  · rw [if_neg (by omega)]
    exact digitsVal_natDigitsGo n n h le_rfl

theorem natRepr_inj {a b : Nat} (h : natRepr a = natRepr b) : a = b := by
  have hv := natRepr_val a
  rw [h, natRepr_val] at hv
  omega

theorem natDigitsGo_digits : ∀ fuel n c, c ∈ natDigitsGo fuel n → c.isDigit = true := by
  intro fuel
  induction fuel with
  | zero => intro n c hc; simp [natDigitsGo] at hc
  | succ f ih =>
      intro n c hc
      match n with
      | 0 => simp [natDigitsGo] at hc
      | n' + 1 =>
          rw [show natDigitsGo (f + 1) (n' + 1) =
              natDigitsGo f ((n' + 1) / 10) ++ [digitChar ((n' + 1) % 10)] from rfl] at hc
          rcases List.mem_append.1 hc with hc | hc
          · exact ih _ c hc
          · simp only [List.mem_singleton] at hc
            subst hc
            exact digitChar_isDigit _ (Nat.mod_lt _ (by norm_num))

theorem natRepr_digits {n : Nat} {c : Char} (hc : c ∈ natRepr n) : c.isDigit = true := by
  unfold natRepr at hc
  split at hc
  · simp only [List.mem_singleton] at hc
    subst hc
    decide
  · exact natDigitsGo_digits n n c hc

theorem pad2_digits {n : Nat} {c : Char} (hc : c ∈ pad2 n) : c.isDigit = true := by
  unfold pad2 at hc
  split at hc
  · rcases List.mem_cons.1 hc with rfl | hc
    · decide
    · exact natRepr_digits hc
  · exact natRepr_digits hc

theorem toIso_ne_underscore {y m d : Nat} {c : Char} (hc : c ∈ toIso y m d) : c ≠ '_' := by
  unfold toIso at hc
  rcases List.mem_append.1 hc with hc | hc
  · exact (by rintro rfl; exact absurd (natRepr_digits hc) (by decide))
  rcases List.mem_cons.1 hc with rfl | hc
  · decide
  rcases List.mem_append.1 hc with hc | hc
  · exact (by rintro rfl; exact absurd (pad2_digits hc) (by decide))
  rcases List.mem_cons.1 hc with rfl | hc
  · decide
  · exact (by rintro rfl; exact absurd (pad2_digits hc) (by decide))

theorem centsStr_chars {n : Nat} {c : Char} (hc : c ∈ centsStr n) :
    c.isDigit = true ∨ c = '.' := by
  unfold centsStr at hc
  rcases List.mem_append.1 hc with hc | hc
  · exact Or.inl (natRepr_digits hc)
  rcases List.mem_cons.1 hc with rfl | hc
  · exact Or.inr rfl
  · left
    split at hc
    · simp only [List.mem_singleton] at hc; subst hc; decide
    split at hc
    · simp only [List.mem_singleton] at hc
      subst hc
      exact digitChar_isDigit _ (by omega)
    · rcases List.mem_cons.1 hc with rfl | hc
      · exact digitChar_isDigit _ (by omega)
      · simp only [List.mem_singleton] at hc
        subst hc
        exact digitChar_isDigit _ (by omega)

theorem centsStr_ne_underscore {n : Nat} {c : Char} (hc : c ∈ centsStr n) : c ≠ '_' := by
  rcases centsStr_chars hc with hd | rfl
  · rintro rfl; exact absurd hd (by decide)
  · decide

theorem natRepr_ne_dot {n : Nat} {c : Char} (hc : c ∈ natRepr n) : c ≠ '.' := by
  rintro rfl
  exact absurd (natRepr_digits hc) (by decide)

/-- Splitting a separator-joined concatenation: when neither left part
contains the separator, equal concatenations have equal parts. -/
theorem append_sep_inj {sep : Char} : ∀ (xs ys us vs : List Char),
    (∀ c ∈ xs, c ≠ sep) → (∀ c ∈ ys, c ≠ sep) →
    xs ++ sep :: us = ys ++ sep :: vs → xs = ys ∧ us = vs := by
  intro xs
  induction xs with
  | nil =>
      intro ys us vs _ hy h
      cases ys with
      | nil => simpa using h
      | cons b ys =>
          exfalso
          have hb : sep = b := by simpa using congrArg (List.headD · sep) h
          exact hy b (by simp) hb.symm
  | cons a xs ih =>
      intro ys us vs hx hy h
      cases ys with
      | nil =>
          exfalso
          have ha : a = sep := by simpa using congrArg (List.headD · sep) h
          exact hx a (by simp) ha
      | cons b ys =>
          have hab : a = b := by simpa using congrArg (List.headD · sep) h
          have htail : xs ++ sep :: us = ys ++ sep :: vs := by
            simpa using congrArg List.tail h
          obtain ⟨h1, h2⟩ := ih ys us vs (fun c hc => hx c (by simp [hc]))
            (fun c hc => hy c (by simp [hc])) htail
          exact ⟨by rw [hab, h1], h2⟩

theorem centsStr_inj {a b : Nat} (h : centsStr a = centsStr b) : a = b := by
  unfold centsStr at h
  obtain ⟨h1, h2⟩ := append_sep_inj _ _ _ _
    (fun c hc => natRepr_ne_dot hc) (fun c hc => natRepr_ne_dot hc) h
  have hdiv : a / 100 = b / 100 := natRepr_inj h1
  have hmod10a := Nat.mod_mod_of_dvd a (by norm_num : (10:ℕ) ∣ 100)
  have hmod10b := Nat.mod_mod_of_dvd b (by norm_num : (10:ℕ) ∣ 100)
  have hmod : a % 100 = b % 100 := by
    by_cases ha0 : a % 100 = 0 <;> by_cases hb0 : b % 100 = 0
    · omega
    · exfalso
      rw [if_pos ha0, if_neg hb0] at h2
      by_cases hb10 : b % 10 = 0
      · rw [if_pos hb10] at h2
        have hd : ('0' : Char) = digitChar (b % 100 / 10) := by simpa using h2
        have := digitVal_digitChar (b % 100 / 10) (by omega)
        rw [← hd] at this
        have h0 : digitVal '0' = 0 := by decide
        omega
      · rw [if_neg hb10] at h2
        simp at h2
    · exfalso
      rw [if_neg ha0, if_pos hb0] at h2
      by_cases ha10 : a % 10 = 0
      · rw [if_pos ha10] at h2
        have hd : digitChar (a % 100 / 10) = ('0' : Char) := by simpa using h2
        have := digitVal_digitChar (a % 100 / 10) (by omega)
        rw [hd] at this
        have h0 : digitVal '0' = 0 := by decide
        omega
      · rw [if_neg ha10] at h2
        simp at h2
    · rw [if_neg ha0, if_neg hb0] at h2
      by_cases ha10 : a % 10 = 0 <;> by_cases hb10 : b % 10 = 0
      · rw [if_pos ha10, if_pos hb10] at h2
        have hd : digitChar (a % 100 / 10) = digitChar (b % 100 / 10) := by simpa using h2
        have := digitChar_inj _ (by omega) _ (by omega) hd
        omega
      · rw [if_pos ha10, if_neg hb10] at h2
        simp at h2
      · rw [if_neg ha10, if_pos hb10] at h2
        simp at h2
      · rw [if_neg ha10, if_neg hb10] at h2
        have hd1 : digitChar (a % 100 / 10) = digitChar (b % 100 / 10) := by
          simpa using congrArg (List.headD · '0') h2
        have hd2 : digitChar (a % 10) = digitChar (b % 10) := by
          simpa using congrArg (fun l => List.headD (List.tail l) '0') h2
        have e1 := digitChar_inj _ (by omega) _ (by omega) hd1
        have e2 := digitChar_inj _ (by omega) _ (by omega) hd2
        omega
  omega

/-- For a cents value, `str(float)` as modelled by `pyFloatStr` agrees with
`centsStr`: `mkRat n 100` stores `n` over 100 in lowest terms, and the key
rendering recovers `n`. -/
theorem pyFloatStr_cents (n : Nat) : pyFloatStr (mkRat n 100) = centsStr n := by
  have hnum : Rat.divInt (mkRat (n : Int) 100).num ((mkRat (n : Int) 100).den : Int) =
      Rat.divInt (n : Int) (100 : Int) := by
    rw [Rat.num_divInt_den, Rat.mkRat_eq_divInt]
    norm_num
  have key : (mkRat (n : Int) 100).num * 100 = (n : Int) * (mkRat (n : Int) 100).den :=
    (Rat.divInt_eq_iff (by exact_mod_cast (mkRat (n : Int) 100).den_pos.ne') (by norm_num)).1
      hnum
  have hq0 : (0:ℚ) ≤ mkRat (n : Int) 100 := Rat.mkRat_nonneg (Int.natCast_nonneg n) _
  have hnum0 : 0 ≤ (mkRat (n : Int) 100).num := Rat.num_nonneg.2 hq0
  have hdvd : (mkRat (n : Int) 100).den ∣ 100 := by
    have h1 : ((mkRat (n : Int) 100).den : Int) ∣ (mkRat (n : Int) 100).num * 100 :=
      ⟨(n : Int), by rw [key]; ring⟩
    have h2 : (mkRat (n : Int) 100).den ∣ (mkRat (n : Int) 100).num.natAbs * 100 := by
      have h3 := Int.natAbs_dvd_natAbs.2 h1
      simpa [Int.natAbs_mul] using h3
    exact Nat.Coprime.dvd_of_dvd_mul_left ((mkRat (n : Int) 100).reduced.symm) h2
  have hden0 : 0 < (mkRat (n : Int) 100).den := (mkRat (n : Int) 100).den_pos
  have keyN : (mkRat (n : Int) 100).num.toNat * 100 = n * (mkRat (n : Int) 100).den := by
    omega
  have hval : (mkRat (n : Int) 100).num.toNat * (100 / (mkRat (n : Int) 100).den) = n := by
    rcases hdvd with ⟨k, hk⟩
    have hk2 : 100 / (mkRat (n : Int) 100).den = k :=
      Nat.div_eq_of_eq_mul_left hden0 (hk.trans (Nat.mul_comm _ _))
    rw [hk2]
    have h4 : ((mkRat (n : Int) 100).num.toNat * k) * (mkRat (n : Int) 100).den =
        n * (mkRat (n : Int) 100).den := by
      calc ((mkRat (n : Int) 100).num.toNat * k) * (mkRat (n : Int) 100).den
          = (mkRat (n : Int) 100).num.toNat * ((mkRat (n : Int) 100).den * k) := by ring
        _ = (mkRat (n : Int) 100).num.toNat * 100 := by rw [← hk]
        _ = n * (mkRat (n : Int) 100).den := keyN
    exact Nat.eq_of_mul_eq_mul_right hden0 h4
  unfold pyFloatStr
  rw [if_pos ⟨hnum0, Nat.mod_eq_zero_of_dvd hdvd⟩, hval]

/-- Claim C4: the deduplication keys of two extracted candidates are equal
only if they agree on date, amount, and the first 20 characters of the
description: the underscore separators cannot collide with the date (digits
and hyphens) or the amount rendering (digits and a point). -/
theorem claim_C4_key_no_collision (l1 l2 : List Char) (t1 t2 : Txn)
    (h1 : extractLine l1 = some t1) (h2 : extractLine l2 = some t2)
    (hk : keyOf t1 = keyOf t2) :
    t1.date = t2.date ∧ t1.amount = t2.amount ∧
      t1.description.take 20 = t2.description.take 20 := by
  obtain ⟨⟨y1, m1, d1, hv1, hd1⟩, -, ⟨n1, hn1, ha1⟩⟩ := extractLine_some_spec h1
  obtain ⟨⟨y2, m2, d2, hv2, hd2⟩, -, ⟨n2, hn2, ha2⟩⟩ := extractLine_some_spec h2
  unfold keyOf at hk
  obtain ⟨hdate, hrest⟩ := append_sep_inj _ _ _ _
    (fun c hc => by rw [hd1] at hc; exact toIso_ne_underscore hc)
    (fun c hc => by rw [hd2] at hc; exact toIso_ne_underscore hc) hk
  have hpf1 : pyFloatStr t1.amount = centsStr n1 := by rw [ha1]; exact pyFloatStr_cents n1
  have hpf2 : pyFloatStr t2.amount = centsStr n2 := by rw [ha2]; exact pyFloatStr_cents n2
  rw [hpf1, hpf2] at hrest
  obtain ⟨hamt, hdesc⟩ := append_sep_inj _ _ _ _
    (fun c hc => centsStr_ne_underscore hc)
    (fun c hc => centsStr_ne_underscore hc) hrest
  refine ⟨hdate, ?_, hdesc⟩
  rw [ha1, ha2, centsStr_inj hamt]

/-- Witness for claim C4 at the candidate extracted from
"Jan 5 2024 COFFEE SHOP 12.50", compared with itself. -/
theorem claim_C4_witness :
    "2024-01-05".data = "2024-01-05".data ∧ (mkRat 25 2 : ℚ) = mkRat 25 2 ∧
      "Jan 5 2024 COFFEE SHOP".data.take 20 = "Jan 5 2024 COFFEE SHOP".data.take 20 :=
  claim_C4_key_no_collision "Jan 5 2024 COFFEE SHOP 12.50".data
    "Jan 5 2024 COFFEE SHOP 12.50".data
    ⟨"2024-01-05".data, "Jan 5 2024 COFFEE SHOP".data, mkRat 25 2⟩
    ⟨"2024-01-05".data, "Jan 5 2024 COFFEE SHOP".data, mkRat 25 2⟩
    (by decide) (by decide) rfl

theorem dedupe_subset {ts : List Txn} {t : Txn} (h : t ∈ dedupe ts) : t ∈ ts :=
  (dedupeGo_sublist ts []).subset h

/-- Counterexample to claim C7: the line "0999-01-02 ABCDE 12.50" passes
the whole pipeline, and its output date "999-01-02" is 9 characters long —
not of the claimed ISO YYYY-MM-DD form — because `strftime`'s year is
rendered without zero padding. -/
theorem claim_C7_counterexample :
    pipelineRun ["0999-01-02 ABCDE 12.50".data] =
      [⟨"999-01-02".data, "09 ABCDE".data, mkRat 25 2⟩] ∧
    ("999-01-02".data).length ≠ 10 := by
  constructor
  · decide
  · decide

/-- Amended claim C7: every record of the pipeline's final output carries a
date that is the rendering `toIso` of a calendar-validated (year, month,
day) — two-digit zero-padded month and day, the year unpadded, hence
4-digit exactly when the year is at least 1000, which covers every
two-digit-year date; a description that is the 100-character truncation of
a whitespace-collapsed string longer than 3 characters (hence non-empty,
longer than 3 and at most 100 characters); and a positive cent-valued
amount. -/
theorem claim_C7_output_invariant (lines : List (List Char)) (t : Txn)
    (h : t ∈ pipelineRun lines) :
    (∃ y m d, validYmd y m d = true ∧ t.date = toIso y m d) ∧
    (∃ full, t.description = full.take 100 ∧ collapseWs full = full ∧ 3 < full.length) ∧
    t.description ≠ [] ∧ 3 < t.description.length ∧ t.description.length ≤ 100 ∧
    (∃ n : Nat, 1 ≤ n ∧ t.amount = mkRat n 100) ∧ 0 < t.amount := by
  have hmem : t ∈ extract_transactions_from_lines lines := dedupe_subset h
  obtain ⟨cs, _, hext⟩ := List.mem_filterMap.1 hmem
  obtain ⟨hdate, ⟨full, hfull, hcol, hlen⟩, ⟨n, hn1, hamt⟩⟩ := extractLine_some_spec hext
  have hdlen : t.description.length = min 100 full.length := by
    rw [hfull, List.length_take]
  refine ⟨hdate, ⟨full, hfull, hcol, hlen⟩, ?_, ?_, ?_, ⟨n, hn1, hamt⟩, ?_⟩
  · intro hnil
    rw [hnil] at hdlen
    simp at hdlen
    omega
  · omega
  · omega
  · rw [hamt, Rat.mkRat_eq_div]
    have hn : (0:ℚ) < (n : ℤ) := by exact_mod_cast hn1
    positivity

/-- Witness for claim C7 at the pipeline run on the single line
"05/06/2024 GROCERY STORE 1,234.56". -/
theorem claim_C7_witness :
    (∃ y m d, validYmd y m d = true ∧ "2024-06-05".data = toIso y m d) ∧
    (∃ full, "GROCERY STORE".data = full.take 100 ∧ collapseWs full = full ∧
      3 < full.length) ∧
    "GROCERY STORE".data ≠ [] ∧ 3 < "GROCERY STORE".data.length ∧
    "GROCERY STORE".data.length ≤ 100 ∧
    (∃ n : Nat, 1 ≤ n ∧ mkRat 30864 25 = mkRat n 100) ∧ (0:ℚ) < mkRat 30864 25 :=
  claim_C7_output_invariant ["05/06/2024 GROCERY STORE 1,234.56".data]
    ⟨"2024-06-05".data, "GROCERY STORE".data, mkRat 30864 25⟩ (by decide)

/-! ## Claim C8: lines with no two-decimal amount substring -/

theorem takeWhile_dropWhile_append {p : Char → Bool} (xs : List Char) :
    ∀ y ys, (∀ c ∈ xs, p c = true) → p y = false →
      (xs ++ y :: ys).takeWhile p = xs ∧ (xs ++ y :: ys).dropWhile p = y :: ys := by
  induction xs with
  | nil =>
      intro y ys _ hy
      constructor
      · show (y :: ys).takeWhile p = []
        rw [List.takeWhile_cons, if_neg (by simp [hy])]
      · show (y :: ys).dropWhile p = y :: ys
        rw [List.dropWhile_cons, if_neg (by simp [hy])]
  | cons c xs ih =>
      intro y ys hx hy
      have hc : p c = true := hx c (by simp)
      obtain ⟨h1, h2⟩ := ih y ys (fun x hx2 => hx x (by simp [hx2])) hy
      constructor
      · rw [List.cons_append, List.takeWhile_cons, if_pos (by simp [hc]), h1]
      · rw [List.cons_append, List.dropWhile_cons, if_pos (by simp [hc]), h2]

theorem findAmountsGo_ne_nil_of_tryAmtAt {cs m0 : List Char}
    (h : tryAmtAt cs = some m0) : findAmountsGo cs 0 ≠ [] := by
  cases cs with
  | nil =>
      rw [show tryAmtAt ([] : List Char) = none from rfl] at h
      exact absurd h (by simp)
  | cons c rest =>
      rw [show findAmountsGo (c :: rest) 0 =
          (match tryAmtAt (c :: rest) with
           | some m => m :: findAmountsGo rest (m.length - 1)
           | none => findAmountsGo rest 0) from rfl, h]
      simp

/-- A line containing an amount-shaped substring always has at least one
`findall` match. -/
theorem findAmounts_ne_nil_of_shape (pre mid post : List Char) (hs : AmtShape mid) :
    findAmounts (pre ++ mid ++ post) ≠ [] := by
  induction pre with
  | nil =>
      obtain ⟨run, d1, d2, rfl, hne, hrun, h1, h2⟩ := hs
      have hrw : ([] ++ (run ++ '.' :: d1 :: d2 :: []) ++ post) =
          run ++ '.' :: d1 :: d2 :: post := by simp
      rw [hrw]
      obtain ⟨htw, hdw⟩ := takeWhile_dropWhile_append run '.' (d1 :: d2 :: post) hrun
        (by decide)
      have htry : tryAmtAt (run ++ '.' :: d1 :: d2 :: post) = some (run ++ ['.', d1, d2]) := by
        unfold tryAmtAt
        rw [hdw, htw]
        show (if (decide (run ≠ []) && d1.isDigit && d2.isDigit) = true
            then some (run ++ ['.', d1, d2]) else none) = some (run ++ ['.', d1, d2])
        rw [if_pos (by simp [hne, h1, h2])]
      exact findAmountsGo_ne_nil_of_tryAmtAt htry
  | cons c pre ih =>
      have hrw : ((c :: pre) ++ mid ++ post) = c :: (pre ++ mid ++ post) := by simp
      rw [hrw]
      show findAmountsGo (c :: (pre ++ mid ++ post)) 0 ≠ []
      rw [show findAmountsGo (c :: (pre ++ mid ++ post)) 0 =
          (match tryAmtAt (c :: (pre ++ mid ++ post)) with
           | some m => m :: findAmountsGo (pre ++ mid ++ post) (m.length - 1)
           | none => findAmountsGo (pre ++ mid ++ post) 0) from rfl]
      rcases htry : tryAmtAt (c :: (pre ++ mid ++ post)) with _ | m0
      · exact ih
      · simp

/-- Claim C8: a line with no substring of the monetary shape (a nonempty
run of digits and commas, a point, two digits) yields no candidate; the
rejection is the absent result `none`, the embedding of the source's
`continue` — no exception path exists. -/
theorem claim_C8_no_amount_no_candidate (cs : List Char)
    (h : ¬ ∃ pre mid post, cs = pre ++ mid ++ post ∧ AmtShape mid) :
    extractLine cs = none := by
  have hfa : findAmounts cs = [] := by
    by_contra hne
    obtain ⟨m, hm⟩ := List.exists_mem_of_ne_nil _ hne
    obtain ⟨hs, pre, post, hdec⟩ := findAmounts_shape hm
    exact h ⟨pre, m, post, hdec, hs⟩
  unfold extractLine
  cases hpd : parse_date cs with
  | none => rfl
  | some date =>
      rw [hfa]
      rfl

/-- Witness for claim C8 at the concrete line "Page 3 of 10". -/
theorem claim_C8_witness :
    (¬ ∃ pre mid post, "Page 3 of 10".data = pre ++ mid ++ post ∧ AmtShape mid) ∧
      extractLine "Page 3 of 10".data = none := by
  have h : ¬ ∃ pre mid post, "Page 3 of 10".data = pre ++ mid ++ post ∧ AmtShape mid := by
    rintro ⟨pre, mid, post, hdec, hs⟩
    have h2 := findAmounts_ne_nil_of_shape pre mid post hs
    rw [← hdec] at h2
    exact h2 (by decide)
  exact ⟨h, claim_C8_no_amount_no_candidate _ h⟩

/-! ## Claim C6: `parse_amount` versus the spec's cleaning description -/

theorem splitAtDot_spec : ∀ cs : List Char,
    (∀ c ∈ (splitAtDot cs).1, c ≠ '.') ∧
      (((splitAtDot cs).2 = none ∧ cs = (splitAtDot cs).1) ∨
        (∃ fp, (splitAtDot cs).2 = some fp ∧ cs = (splitAtDot cs).1 ++ '.' :: fp)) := by
  intro cs
  induction cs with
  | nil => exact ⟨by simp [splitAtDot], Or.inl ⟨rfl, rfl⟩⟩
  | cons c rest ih =>
      obtain ⟨ihd, ihcase⟩ := ih
      by_cases hc : c = '.'
      · subst hc
        have h1 : splitAtDot ('.' :: rest) = ([], some rest) := by
          unfold splitAtDot
          rw [if_pos rfl]
        rw [h1]
        exact ⟨by simp, Or.inr ⟨rest, rfl, rfl⟩⟩
      · have h1 : splitAtDot (c :: rest) =
            (c :: (splitAtDot rest).1, (splitAtDot rest).2) := by
          conv_lhs => unfold splitAtDot
          rw [if_neg hc]
        rw [h1]
        refine ⟨?_, ?_⟩
        · intro x hx
          rcases List.mem_cons.1 hx with rfl | hx
          · exact hc
          · exact ihd x hx
        · rcases ihcase with ⟨h2, h3⟩ | ⟨fp, h2, h3⟩
          · exact Or.inl ⟨h2, by rw [← h3]⟩
          · exact Or.inr ⟨fp, h2, by rw [List.cons_append, ← h3]⟩

theorem parseUnsigned_eq (cs : List Char) :
    parseUnsigned cs = if isUnsignedNumeral cs then some (unsignedVal cs) else none := by
  obtain ⟨hnd, hcase⟩ := splitAtDot_spec cs
  rcases hcase with ⟨h2, h3⟩ | ⟨fp, h2, h3⟩
  · -- no decimal point in the input
    obtain ⟨ip, hip⟩ : ∃ ip, splitAtDot cs = (ip, none) :=
      ⟨(splitAtDot cs).1, Prod.ext rfl h2⟩
    have hip1 : (splitAtDot cs).1 = ip := by rw [hip]
    rw [hip1] at hnd h3
    have hnum_iff : isUnsignedNumeral cs = true ↔
        (ip ≠ [] ∧ ∀ c ∈ ip, c.isDigit = true) := by
      unfold isUnsignedNumeral
      simp only [Bool.and_eq_true, List.all_eq_true, List.any_eq_true, Bool.or_eq_true,
        decide_eq_true_eq]
      constructor
      · rintro ⟨⟨hall, -⟩, c, hcmem, hcdig⟩
        rw [h3] at hcmem hall
        refine ⟨fun hnil => by rw [hnil] at hcmem; simp at hcmem, fun x hx => ?_⟩
        rcases hall x hx with hd | hd
        · exact hd
        · exact absurd hd (hnd x hx)
      · rintro ⟨hne, hdig⟩
        rw [h3]
        obtain ⟨x, hx⟩ := List.exists_mem_of_ne_nil _ hne
        have hcnt : List.count '.' ip = 0 :=
          List.count_eq_zero.2 (fun hm => hnd '.' hm rfl)
        exact ⟨⟨fun c hc => Or.inl (hdig c hc), by omega⟩, x, hx, hdig x hx⟩
    have hval : unsignedVal cs = mkRat (digitsVal ip) 1 := by
      unfold unsignedVal
      simp only [hip]
    rw [hval]
    unfold parseUnsigned
    simp only [hip]
    by_cases hB : (ip ≠ [] ∧ ∀ c ∈ ip, c.isDigit = true)
    · rw [if_pos (by simp only [Bool.and_eq_true, decide_eq_true_eq,
          List.all_eq_true]; exact hB), if_pos (hnum_iff.2 hB)]
    · rw [if_neg (fun hA => hB (by simpa only [Bool.and_eq_true, decide_eq_true_eq,
          List.all_eq_true] using hA)), if_neg (fun hI => hB (hnum_iff.1 hI))]
  · -- a decimal point splits the input
    obtain ⟨ip, hip⟩ : ∃ ip, splitAtDot cs = (ip, some fp) :=
      ⟨(splitAtDot cs).1, Prod.ext rfl h2⟩
    have hip1 : (splitAtDot cs).1 = ip := by rw [hip]
    rw [hip1] at hnd h3
    have hcnt1 : List.count '.' ip = 0 :=
      List.count_eq_zero.2 (fun hm => hnd '.' hm rfl)
    have hnum_iff : isUnsignedNumeral cs = true ↔
        ((ip ≠ [] ∨ fp ≠ []) ∧ (∀ c ∈ ip, c.isDigit = true) ∧
          ∀ c ∈ fp, c.isDigit = true) := by
      unfold isUnsignedNumeral
      simp only [Bool.and_eq_true, List.all_eq_true, List.any_eq_true, Bool.or_eq_true,
        decide_eq_true_eq]
      constructor
      · rintro ⟨⟨hall, hcnt⟩, c, hcmem, hcdig⟩
        rw [h3] at hcmem hall hcnt
        rw [List.count_append, List.count_cons_self, hcnt1] at hcnt
        have hfp0 : List.count '.' fp = 0 := by omega
        have hfpdot : ('.' : Char) ∉ fp := List.count_eq_zero.1 hfp0
        have hipdig : ∀ x ∈ ip, x.isDigit = true := by
          intro x hx
          rcases hall x (List.mem_append.2 (Or.inl hx)) with hd | hd
          · exact hd
          · exact absurd hd (hnd x hx)
        have hfpdig : ∀ x ∈ fp, x.isDigit = true := by
          intro x hx
          rcases hall x (List.mem_append.2 (Or.inr (List.mem_cons.2 (Or.inr hx)))) with
            hd | hd
          · exact hd
          · subst hd; exact absurd hx hfpdot
        refine ⟨?_, hipdig, hfpdig⟩
        rcases List.mem_append.1 hcmem with hc | hc
        · exact Or.inl (fun hnil => by rw [hnil] at hc; simp at hc)
        · rcases List.mem_cons.1 hc with rfl | hc
          · exact absurd hcdig (by decide)
          · exact Or.inr (fun hnil => by rw [hnil] at hc; simp at hc)
      · rintro ⟨hor, hipd, hfpd⟩
        rw [h3]
        have hfpcnt : List.count '.' fp = 0 :=
          List.count_eq_zero.2 (fun hm => absurd (hfpd '.' hm) (by decide))
        refine ⟨⟨?_, ?_⟩, ?_⟩
        · intro x hx
          rcases List.mem_append.1 hx with hx | hx
          · exact Or.inl (hipd x hx)
          · rcases List.mem_cons.1 hx with rfl | hx
            · exact Or.inr rfl
            · exact Or.inl (hfpd x hx)
        · rw [List.count_append, List.count_cons_self, hcnt1, hfpcnt]
        · rcases hor with hne | hne
          · obtain ⟨x, hx⟩ := List.exists_mem_of_ne_nil _ hne
            exact ⟨x, List.mem_append.2 (Or.inl hx), hipd x hx⟩
          · obtain ⟨x, hx⟩ := List.exists_mem_of_ne_nil _ hne
            exact ⟨x, List.mem_append.2 (Or.inr (List.mem_cons.2 (Or.inr hx))),
              hfpd x hx⟩
    have hval : unsignedVal cs =
        mkRat (digitsVal ip * 10 ^ fp.length + digitsVal fp) (10 ^ fp.length) := by
      unfold unsignedVal
      simp only [hip]
    rw [hval]
    unfold parseUnsigned
    simp only [hip]
    by_cases hB : ((ip ≠ [] ∨ fp ≠ []) ∧ (∀ c ∈ ip, c.isDigit = true) ∧
        ∀ c ∈ fp, c.isDigit = true)
    · rw [if_pos (by simp only [Bool.and_eq_true, Bool.or_eq_true, decide_eq_true_eq,
          List.all_eq_true]; exact ⟨⟨hB.1, hB.2.1⟩, hB.2.2⟩), if_pos (hnum_iff.2 hB)]
    · rw [if_neg (fun hA => hB (by
          simp only [Bool.and_eq_true, Bool.or_eq_true, decide_eq_true_eq,
            List.all_eq_true] at hA
          exact ⟨hA.1.1, hA.1.2, hA.2⟩)),
        if_neg (fun hI => hB (hnum_iff.1 hI))]

theorem parseFloatQ_eq (cs : List Char) :
    parseFloatQ cs = if isNumeral cs then some (numeralVal cs) else none := by
  cases cs with
  | nil =>
      show parseUnsigned [] = if isNumeral [] then some (numeralVal []) else none
      rw [parseUnsigned_eq]
      rfl
  | cons c rest =>
      show (if c = '-' then (parseUnsigned rest).map Neg.neg
          else parseUnsigned (c :: rest)) =
        if isNumeral (c :: rest) then some (numeralVal (c :: rest)) else none
      by_cases hc : c = '-'
      · subst hc
        rw [if_pos rfl, parseUnsigned_eq]
        have h1 : isNumeral ('-' :: rest) = isUnsignedNumeral rest := by
          show (if ('-' : Char) = '-' then isUnsignedNumeral rest
            else isUnsignedNumeral ('-' :: rest)) = isUnsignedNumeral rest
          rw [if_pos rfl]
        have h2 : numeralVal ('-' :: rest) = -unsignedVal rest := by
          show (if ('-' : Char) = '-' then -unsignedVal rest
            else unsignedVal ('-' :: rest)) = -unsignedVal rest
          rw [if_pos rfl]
        rw [h1, h2]
        by_cases hn : isUnsignedNumeral rest
        · rw [if_pos hn, if_pos hn]
          rfl
        · rw [if_neg hn, if_neg hn]
          rfl
      · rw [if_neg hc, parseUnsigned_eq]
        have h1 : isNumeral (c :: rest) = isUnsignedNumeral (c :: rest) := by
          show (if c = '-' then isUnsignedNumeral rest
            else isUnsignedNumeral (c :: rest)) = isUnsignedNumeral (c :: rest)
          rw [if_neg hc]
        have h2 : numeralVal (c :: rest) = unsignedVal (c :: rest) := by
          show (if c = '-' then -unsignedVal rest
            else unsignedVal (c :: rest)) = unsignedVal (c :: rest)
          rw [if_neg hc]
        rw [h1, h2]

/-- `parse_amount` agrees with the amended description: keep digits,
commas, periods and every minus sign; drop commas; succeed with the
absolute value exactly on decimal numerals of a nonempty cleaned string. -/
theorem parse_amount_eq_amended (cs : List Char) :
    parse_amount cs = amendedParseAmount cs := by
  unfold parse_amount amendedParseAmount
  by_cases hcl : cs.filter isAmountKeep = []
  · rw [if_pos hcl, if_neg (by simp [hcl])]
  · rw [if_neg hcl, parseFloatQ_eq]
    by_cases hn : isNumeral ((cs.filter isAmountKeep).filter (· ≠ ',')) = true
    · rw [if_pos hn, if_pos (by
        simp only [Bool.and_eq_true, decide_eq_true_eq]
        exact ⟨hcl, hn⟩)]
    · rw [if_neg hn, if_neg (by
        intro hA
        simp only [Bool.and_eq_true, decide_eq_true_eq] at hA
        exact hn hA.2)]

/-- Counterexample to claim C6: `parse_amount` keeps every minus sign, not
only a leading one; on "45.00-" the code returns `none` (the kept trailing
minus makes `float` fail) while the claim's cleaning — which strips the
non-leading minus — would return 45. -/
theorem claim_C6_counterexample :
    parse_amount "45.00-".data ≠ claimParseAmount "45.00-".data ∧
      parse_amount "45.00-".data = none ∧
      claimParseAmount "45.00-".data = some 45 := by
  refine ⟨by decide, by decide, by decide⟩

/-- Amended claim C6: `parse_amount` strips every character except digits,
commas, periods and minus signs (wherever they occur), removes commas,
parses the remainder as a decimal numeral and returns its absolute value;
it returns `none` exactly when the cleaned string is empty or the
de-comma'd remainder is not a numeral (an optional leading minus then
digits with at most one point); parsing is sign-insensitive: "-45.00" and
"45.00" both yield 45. -/
theorem claim_C6_amended :
    (∀ cs : List Char, parse_amount cs = amendedParseAmount cs) ∧
    (∀ cs : List Char, parse_amount cs = none ↔
      (cs.filter isAmountKeep = [] ∨
        isNumeral ((cs.filter isAmountKeep).filter (· ≠ ',')) = false)) ∧
    parse_amount "-45.00".data = some 45 ∧
    parse_amount "45.00".data = some 45 := by
  refine ⟨parse_amount_eq_amended, ?_, by decide, by decide⟩
  intro cs
  rw [parse_amount_eq_amended]
  unfold amendedParseAmount
  constructor
  · intro h
    by_contra hcon
    push_neg at hcon
    obtain ⟨h1, h2⟩ := hcon
    rw [Bool.ne_false_iff] at h2
    rw [if_pos (by
      simp only [Bool.and_eq_true, decide_eq_true_eq]
      exact ⟨h1, h2⟩)] at h
    exact absurd h (by simp)
  · intro h
    rcases h with h | h
    · rw [if_neg (by
        intro hA
        simp only [Bool.and_eq_true, decide_eq_true_eq] at hA
        exact hA.1 h)]
    · rw [if_neg (by
        intro hA
        simp only [Bool.and_eq_true, decide_eq_true_eq] at hA
        have h2 := hA.2
        rw [h] at h2
        exact absurd h2 (by decide))]

/-- Counterexample to claim C1: on the line
"03/15/2024 GROCERY STORE PURCHASE 1,234.56" the extractor yields no
candidate at all — in particular not the candidate
(date "2024-03-15", description "GROCERY STORE PURCHASE", amount 1234.56)
the claim promises. -/
theorem claim_C1_counterexample :
    extractLine "03/15/2024 GROCERY STORE PURCHASE 1,234.56".data = none ∧
      extractLine "03/15/2024 GROCERY STORE PURCHASE 1,234.56".data ≠
        some ⟨"2024-03-15".data, "GROCERY STORE PURCHASE".data, mkRat 123456 100⟩ := by
  constructor
  · decide
  · decide

/-- Amended claim C1: the line "03/15/2024 GROCERY STORE PURCHASE 1,234.56"
yields no candidate: the DD/MM/YYYY pattern does match "03/15/2024", but the
day-first reading makes 15 the month, which fails calendar validation; the
DD/MM/YY pattern then matches "03/15/20" and fails the same way; no other
pattern matches, so date recognition fails and the line is rejected. -/
theorem claim_C1_amended :
    pat2 "03/15/2024 GROCERY STORE PURCHASE 1,234.56".data = some (3, 15, 2024) ∧
    validYmd 2024 15 3 = false ∧
    pat4 "03/15/2024 GROCERY STORE PURCHASE 1,234.56".data = some (3, 15, 20) ∧
    validYmd (y2k 20) 15 3 = false ∧
    parse_date "03/15/2024 GROCERY STORE PURCHASE 1,234.56".data = none ∧
    extractLine "03/15/2024 GROCERY STORE PURCHASE 1,234.56".data = none := by
  refine ⟨by decide, by decide, by decide, by decide, by decide, by decide⟩

/-- Claim C10: on "Jan 5 2024 COFFEE SHOP 12.50" the month-name pattern
recognizes the date, yet the isolated description still contains the whole
date text "Jan 5 2024", because description isolation only removes the two
numeric date shapes. -/
theorem claim_C10_month_name_left_in_description :
    parse_date "Jan 5 2024 COFFEE SHOP 12.50".data = some "2024-01-05".data ∧
    extractLine "Jan 5 2024 COFFEE SHOP 12.50".data =
      some ⟨"2024-01-05".data, "Jan 5 2024 COFFEE SHOP".data, mkRat 25 2⟩ ∧
    (∃ l r, "Jan 5 2024 COFFEE SHOP".data = l ++ "Jan 5 2024".data ++ r) := by
  refine ⟨by decide, by decide, [], " COFFEE SHOP".data, by decide⟩

end PdfExtract
